import Mathlib

/-!
Verification development for the path-resolution module `lib/getpath.py` of
the MakeHuman repository.

The module is a collection of pure string transformations over `/`-separated
paths (`formatPath`, `commonprefix`, `isSubPath`, `getRelativePath`, ...)
layered over a few filesystem probes.  The embedding below models:

* path strings as Lean `String` (a structure over `List Char`, so every
  operation is executable and provable by computation);
* `os.path.normpath`, `os.path.join`, `os.path.abspath`, `os.path.relpath`,
  `os.path.splitext` for POSIX, translated from CPython's `posixpath.py`;
* `os.path.realpath` (symlink resolution) as an abstract parameter
  `rp : String → String`, and `os.path.isfile` as an abstract parameter
  `isfile : String → Bool`; concrete instantiations model concrete
  filesystems;
* the current working directory as an abstract parameter `cwd` (used by
  `os.path.abspath` and `os.path.relpath`);
* Python values that may be either a `str` or a `list` of `str` (several
  functions accept both) as an inductive `PyStrList`, which also contains
  the builtin type object `str` itself so that the identity test
  `relativeTo is str` in `getJailedPath` can be modelled faithfully;
* Python `None` results as `Option.none`;
* the directory traversal of `search` (`os.walk`) as an explicit list of
  `(root, filename)` pairs in traversal order, and the `ValueError` that
  `list.index` can raise as an `Except` error.
-/

namespace MH
/-! ### Splitting and joining on a separator character

`str.split(sep)` / `sep.join(...)` for a one-character separator, the only
form the module uses (`sep='/'`).  They operate on `List Char`, the data of a
Lean `String`. -/

/-- Python `s.split(sep)` for a single-character separator.  The result is
always nonempty; splitting the empty string gives `[[]]`, like Python's
`"".split('/') == ['']`. -/
def splitChar (sep : Char) : List Char → List (List Char)
  | [] => [[]]
  | c :: cs =>
    match splitChar sep cs with
    | [] => [[]]
    | h :: t => if c = sep then [] :: h :: t else (c :: h) :: t

/-- Python `sep.join(pieces)` for a single-character separator. -/
def joinChar (sep : Char) : List (List Char) → List Char
  | [] => []
  | [x] => x
  | x :: y :: t => x ++ sep :: joinChar sep (y :: t)

/-! ### `os.path` primitives (POSIX), translated from CPython `posixpath.py` -/

/-- The two-component piece `..` (Python `os.pardir`). -/
def dd : List Char := ['.', '.']

/-- The number of initial slashes kept by `posixpath.normpath`: POSIX allows
one or two initial slashes (two are kept), three or more collapse to one. -/
def initSlashes (l : List Char) : Nat :=
  if l.take 1 = ['/'] then
    if l.take 2 = ['/', '/'] ∧ ¬ l.take 3 = ['/', '/', '/'] then 2 else 1
  else 0

/-- One iteration of the component loop of `posixpath.normpath`:
```
for comp in comps:
    if comp in ('', '.'): continue
    if (comp != '..' or (not initial_slashes and not new_comps) or
         (new_comps and new_comps[-1] == '..')):
        new_comps.append(comp)
    elif new_comps:
        new_comps.pop()
```
(the implicit final `else` does nothing; `List.dropLast [] = []` covers it). -/
def stepComp (initAbs : Bool) (acc : List (List Char)) (comp : List Char) :
    List (List Char) :=
  if comp = [] ∨ comp = ['.'] then acc
  else if comp ≠ dd ∨ (initAbs = false ∧ acc = []) ∨ acc.getLast? = some dd then
    acc ++ [comp]
  else acc.dropLast

/-- `posixpath.normpath` on the character data of a path. -/
def normpathL (l : List Char) : List Char :=
  if l = [] then ['.']
  else
    let k := initSlashes l
    let comps := splitChar '/' l
    let nc := comps.foldl (stepComp (decide (k ≠ 0))) []
    let path := List.replicate k '/' ++ joinChar '/' nc
    if path = [] then ['.'] else path

/-- `os.path.normpath` (POSIX). -/
def normpath (p : String) : String := ⟨normpathL p.data⟩

/-- `os.path.isabs` (POSIX): the path starts with a slash. -/
def isAbs (p : String) : Bool := p.data.take 1 = ['/']

/-- `os.path.join(a, b)` for two arguments (POSIX):
if `b` is absolute it replaces `a`; otherwise they are glued with a `/`
unless `a` is empty or already ends with `/`. -/
def joinPath (a b : String) : String :=
  if isAbs b then b
  else if a.data = [] ∨ a.data.getLast? = some '/' then ⟨a.data ++ b.data⟩
  else ⟨a.data ++ '/' :: b.data⟩

/-- `os.path.abspath` relative to an explicit working directory `cwd`:
`normpath(path)` if absolute, else `normpath(join(cwd, path))`. -/
def abspath (cwd p : String) : String :=
  if isAbs p then normpath p else normpath (joinPath cwd p)

/-- Length of the longest common leading run of two lists (what
`os.path.commonprefix` computes on the two segment lists inside
`os.path.relpath`). -/
def commonPrefixLen : List (List Char) → List (List Char) → Nat
  | a :: as, b :: bs => if a = b then commonPrefixLen as bs + 1 else 0
  | _, _ => 0

/-- `os.path.relpath(path, start)` (POSIX), with the working directory made
explicit.  Both arguments are made absolute, split into nonempty segments,
and the result is `['..'] * (len(start)-i) + path[i:]` joined with `/`
(or `'.'` when that list is empty). -/
def relpath (cwd p start : String) : String :=
  let startList := (splitChar '/' (abspath cwd start).data).filter (· ≠ [])
  let pathList := (splitChar '/' (abspath cwd p).data).filter (· ≠ [])
  let i := commonPrefixLen startList pathList
  let relList := List.replicate (startList.length - i) dd ++ pathList.drop i
  if relList = [] then "." else ⟨joinChar '/' relList⟩

/-- `os.path.splitext` (POSIX, from `genericpath._splitext`): split off the
extension at the last dot that comes after the last slash, provided at least
one non-dot character precedes it in the basename. -/
def splitext (p : String) : String × String :=
  let l := p.data
  let sepIndex : Option Nat := ((l.enum.filter (fun q => q.2 = '/')).getLast?).map (·.1)
  let dotIndex : Option Nat := ((l.enum.filter (fun q => q.2 = '.')).getLast?).map (·.1)
  match dotIndex with
  | none => (p, "")
  | some dotN =>
    -- `dotIndex > sepIndex` (a missing index is `-1` in the source)
    let nameStart : Nat := match sepIndex with
      | none => 0
      | some s => s + 1
    if (match sepIndex with | none => true | some s => decide (s < dotN)) then
      if ((l.drop nameStart).take (dotN - nameStart)).any (fun c => c ≠ '.') then
        (⟨l.take dotN⟩, ⟨l.drop dotN⟩)
      else (p, "")
    else (p, "")

/-! ### The module's own helpers: `pathToUnicode`, `formatPath`,
`canonicalPath`, `commonprefix`, `isSubPath` -/

/-- `pathToUnicode(path)`: the `bytes` branch decodes byte strings; on a
`str` argument (the only case arising from the text paths modelled here) it
is the identity. -/
def pathToUnicode (path : String) : String := path

/-- `\` → `/` (Python `.replace("\\", "/")` — single-character pattern, so a
character map). -/
def replaceBS (l : List Char) : List Char :=
  l.map (fun c => if c = '\\' then '/' else c)

/-- `formatPath` on a non-`None` argument:
`pathToUnicode(os.path.normpath(path).replace("\\", "/"))`. -/
def formatPathStr (path : String) : String :=
  pathToUnicode ⟨replaceBS (normpathL path.data)⟩

/-- `formatPath(path)` including the `None` passthrough
(`if path is None: return None`). -/
def formatPath : Option String → Option String
  | none => none
  | some path => some (formatPathStr path)

/-- `canonicalPath(path) = formatPath(os.path.realpath(path))`, with
`os.path.realpath` abstracted as `rp`. -/
def canonicalPath (rp : String → String) (path : String) : String :=
  formatPathStr (rp path)

/-- `_allnamesequal(name)`: all entries of a transposed level equal the
first one. -/
def allnamesequal (name : List (List Char)) : Bool :=
  (name.drop 1).all (fun n => name.head? = some n)

/-- Fuel-driven truncating transpose: `list(zip(*lists))`.  The fuel is the
length of the first list, an upper bound on the zip length. -/
def transposeTruncAux : Nat → List (List (List Char)) → List (List (List Char))
  | 0, _ => []
  | n + 1, ls =>
    if ls.any (·.isEmpty) then []
    else (ls.map (·.headD [])) :: transposeTruncAux n (ls.map (·.tail))

/-- `list(zip(*lists))`: empty for no lists, like Python `zip()`. -/
def transposeTrunc (ls : List (List (List Char))) : List (List (List Char)) :=
  match ls with
  | [] => []
  | l :: _ => transposeTruncAux l.length ls

/-- The module's own `commonprefix(paths, sep='/')` (the Rosetta-code
common-directory-path function): split each path on the separator, keep the
longest leading run of levels on which all paths agree, join it back.
(Source name: `commonprefix`; the separator is a single character at every
call site.) -/
def commonprefixDirs (paths : List String) (sep : Char) : String :=
  let bydirectorylevels := transposeTrunc (paths.map (fun p => splitChar sep p.data))
  ⟨joinChar sep ((bydirectorylevels.takeWhile allnamesequal).map (·.headD []))⟩

/-- `isSubPath(subpath, path)`: canonicalize both and compare the common
directory prefix with the canonical base. -/
def isSubPath (rp : String → String) (subpath path : String) : Bool :=
  let subpath := canonicalPath rp subpath
  let path := canonicalPath rp path
  commonprefixDirs [subpath, path] '/' = path

/-! ### Python dynamic values for list-or-string arguments -/

/-- A Python value that is a `str` instance, a `list` of `str` instances, or
the builtin type object `str` itself (needed to model the identity test
`relativeTo is str` in `getJailedPath`). -/
inductive PyStrList where
  | str (s : String)
  | list (l : List String)
  | strType
deriving DecidableEq

/-- The `if not isinstance(x, list): x = [x]` coercion shared by
`getRelativePath`, `findFile` and `thoroughFindFile`.  (Passing the type
object itself is not done anywhere in the repository and would make the
subsequent path operations raise; it is mapped to the empty list.) -/
def PyStrList.asList : PyStrList → List String
  | .str s => [s]
  | .list l => l
  | .strType => []

/-- Python `x is str`: object identity with the builtin type object `str`.
A `str` instance or a `list` instance is never that object, so the test is
true only for the type object itself. -/
def pyIsStrTypeObj : PyStrList → Bool
  | .strType => true
  | _ => false

/-- Python truthiness of an optional string: `None` and `""` are falsy. -/
def pyTruthyOpt : Option String → Bool
  | none => false
  | some s => !s.data.isEmpty

/-! ### `getRelativePath`, `findFile`, `thoroughFindFile` -/

/-- `getRelativePath(path, relativeTo, strict)`:
wrap a non-list `relativeTo` in a list; scan the whole list keeping the last
entry for which `isSubPath(path, p)` holds; if none holds return `None`
(strict) or the path unchanged (non-strict); otherwise resolve both to real
absolute form and return the formatted `os.path.relpath`. -/
def getRelativePath (rp : String → String) (cwd : String) (path : String)
    (relativeTo : PyStrList) (strict : Bool) : Option String :=
  let relativeToL := relativeTo.asList
  let relto :=
    relativeToL.foldl (fun acc p => if isSubPath rp path p then some p else acc) none
  match relto with
  | none => if strict then none else some path
  | some relto =>
    let relto := abspath cwd (rp relto)
    let path := abspath cwd (rp path)
    let rpath := relpath cwd path relto
    some (formatPathStr rpath)

/-- The search loop of `findFile`: join each search path with `relPath` and
return the first formatted join that is an existing file. -/
def findFileGo (isfile : String → Bool) (relPath : String) :
    List String → Option String
  | [] => none
  | dataPath :: rest =>
    let path := joinPath dataPath relPath
    if isfile path then some (formatPathStr path) else findFileGo isfile relPath rest

/-- `findFile(relPath, searchPaths, strict)`: first existing join, else
`None` (strict) or the unchanged `relPath` (non-strict). -/
def findFile (isfile : String → Bool) (relPath : String)
    (searchPaths : PyStrList) (strict : Bool) : Option String :=
  match findFileGo isfile relPath searchPaths.asList with
  | some p => some p
  | none => if strict then none else some relPath

/-- `thoroughFindFile(filename, searchPaths, searchDefaultPaths)`.
The default data/app directories `getDataPath()`, `getSysDataPath()`,
`getPath()`, `getSysPath()` are abstracted as the four string parameters
`dataPath`, `sysDataPath`, `userPath`, `sysPath`.

Note on the first statement of the source (line 317):
`filename.replace('\\', '/')` — Python's `str.replace` returns a new string
and the result is discarded, so despite the comment "Ensure unix style
path" no normalization of `filename` takes place; the embedding therefore
has no corresponding step. -/
def thoroughFindFile (rp : String → String) (isfile : String → Bool)
    (dataPath sysDataPath userPath sysPath : String)
    (filename : String) (searchPaths : PyStrList) (searchDefaultPaths : Bool) :
    String :=
  let searchPathsL := searchPaths.asList
  let searchPathsL :=
    if searchDefaultPaths then searchPathsL ++ [dataPath, sysDataPath, userPath, sysPath]
    else searchPathsL
  let path := findFile isfile filename (PyStrList.list searchPathsL) true
  if pyTruthyOpt path then canonicalPath rp (path.getD "")
  else if isfile filename then canonicalPath rp filename
  else if h : filename.data.take 5 = ['d', 'a', 't', 'a', '/'] then
    -- `filename.startswith('data/')`; the recursive call gets `filename[5:]`
    let result := thoroughFindFile rp isfile dataPath sysDataPath userPath sysPath
      ⟨filename.data.drop 5⟩ (PyStrList.list searchPathsL) false
    if isfile result then result
    else formatPathStr filename
  else formatPathStr filename
termination_by filename.data.length
decreasing_by
  simp only [List.length_drop]
  have h2 := congrArg List.length h
  rw [List.length_take] at h2
  simp only [List.length_cons, List.length_nil] at h2
  omega

/-! ### `getJailedPath` -/

/-- The inner `_withinJail(path)` of `getJailedPath`: `path` is a subpath of
at least one of the jail roots. -/
def withinJail (rp : String → String) (jailLimits : List String) (path : String) :
    Bool :=
  jailLimits.any (fun j => isSubPath rp path j)

/-- `os.path.realpath` applied to a `relativeTo` value.  Only reachable for
the type object `str` itself (where Python's `realpath` would raise a
`TypeError`); kept as the identity there. -/
def resolveStrList (rp : String → String) : PyStrList → PyStrList
  | .str s => .str (rp s)
  | .list l => .list (l.map rp)
  | .strType => .strType

/-- `getJailedPath(filepath, relativeTo, jailLimits)`:
resolve `filepath` with `realpath`; the guard `if relativeTo is str` is an
identity test against the type object (see `pyIsStrTypeObj`); if the
resolved file path is within the jail, first try a strict relative path
against `relativeTo`, falling back (on `None` or an empty string, per
Python truthiness) to a non-strict relative path against `jailLimits`. -/
def getJailedPath (rp : String → String) (cwd : String) (filepath : String)
    (relativeTo : PyStrList) (jailLimits : List String) : Option String :=
  let filepath := rp filepath
  let relativeTo :=
    if pyIsStrTypeObj relativeTo then resolveStrList rp relativeTo else relativeTo
  if withinJail rp jailLimits filepath then
    let relPath := getRelativePath rp cwd filepath relativeTo true
    if pyTruthyOpt relPath then relPath
    else getRelativePath rp cwd filepath (PyStrList.list jailLimits) false
  else none

/-- `getJailedPath` with the (dead) `if relativeTo is str` canonicalization
step removed: `relativeTo` flows into the relativization untouched.  This is
the behaviour the specification describes for plain-string arguments. -/
def getJailedPathUnresolvedRT (rp : String → String) (cwd : String)
    (filepath : String) (relativeTo : PyStrList) (jailLimits : List String) :
    Option String :=
  let filepath := rp filepath
  if withinJail rp jailLimits filepath then
    let relPath := getRelativePath rp cwd filepath relativeTo true
    if pyTruthyOpt relPath then relPath
    else getRelativePath rp cwd filepath (PyStrList.list jailLimits) false
  else none

/-! ### `search` -/

/-- `list.index(x)` as an option: `none` models the `ValueError` Python
raises when the element is absent. -/
def indexList : List String → String → Option Nat
  | [], _ => none
  | y :: t, x => if y = x then some 0 else (indexList t x).map (· + 1)

/-- Ordered-dict lookup (`basep in discovered` / `discovered[basep]`). -/
def lookupA : List (String × String) → String → Option String
  | [], _ => none
  | (k, v) :: t, x => if k = x then some v else lookupA t x

/-- Ordered-dict value update: replaces in place, keeping insertion order,
like assigning to an existing key of a Python 3.7+ `dict`. -/
def updateA : List (String × String) → String → String → List (String × String)
  | [], _, _ => []
  | (k, v) :: t, x, w => if k = x then (k, w) :: t else (k, v) :: updateA t x w

/-- `e.lower()` restricted to ASCII case folding (the extensions in this
repository are ASCII). -/
def lowerStr (s : String) : String := ⟨s.data.map Char.toLower⟩

/-- The normalization of the `extensions` argument of `search`:
`[e[1:].lower() if e.startswith('.') else e.lower() for e in extensions]`. -/
def normalizeExtensions (extensions : List String) : List String :=
  extensions.map (fun e =>
    if e.data.take 1 = ['.'] then lowerStr ⟨e.data.drop 1⟩ else lowerStr e)

/-- `_aggregate_files_mutexExt(filepath)`: strip the extension, look the
(un-lowercased!) extension tail up in the already-lowercased `extensions`
list, and keep the earliest-listed extension per base path.  A missing
element makes `list.index` raise `ValueError` (modelled as `Except.error`).
The state `discovered` is the insertion-ordered dict. -/
def aggregateMutex (extensions : List String) (discovered : List (String × String))
    (filepath : String) : Except String (List (String × String)) :=
  let be := splitext filepath
  let basep := be.1
  let ext : String := ⟨be.2.data.drop 1⟩
  match lookupA discovered basep with
  | some prev =>
    match indexList extensions ext with
    | none => Except.error "ValueError"
    | some i =>
      match indexList extensions prev with
      | none => Except.error "ValueError"
      | some j =>
        Except.ok (if i < j then updateA discovered basep ext else discovered)
  | none => Except.ok (discovered ++ [(basep, ext)])

/-- The recursive-mode file loop of `search` over the abstract `os.walk`
output: `walk` is the list of `(root, f)` pairs in traversal order.  For
each file whose lower-cased extension is in `extensions`, either aggregate
(mutex mode) or yield `pathToUnicode(os.path.join(root, f))`.  Returns the
final `(discovered, yielded)` state or the propagated `ValueError`. -/
def searchWalkGo (extensions : List String) (mutexExtensions : Bool) :
    List (String × String) → List (String × String) → List String →
    Except String (List (String × String) × List String)
  | [], disc, out => Except.ok (disc, out)
  | (root, f) :: rest, disc, out =>
    let ext : String := ⟨((splitext f).2.data.drop 1).map Char.toLower⟩
    if ext ∈ extensions then
      if mutexExtensions then
        match aggregateMutex extensions disc (joinPath root f) with
        | Except.error e => Except.error e
        | Except.ok disc2 => searchWalkGo extensions mutexExtensions rest disc2 out
      else
        searchWalkGo extensions mutexExtensions rest disc
          (out ++ [pathToUnicode (joinPath root f)])
    else searchWalkGo extensions mutexExtensions rest disc out

/-- `search(paths, extensions, recursive=True, mutexExtensions)` with the
`os.walk` traversal abstracted as the `(root, f)` list `walk`: the sequence
of yielded paths, or the uncaught `ValueError`.  In mutex mode the
reconstructed `"%s.%s" % (p, e)` paths are emitted after the traversal, in
dict insertion order. -/
def search (walk : List (String × String)) (extensions0 : List String)
    (mutexExtensions : Bool) : Except String (List String) :=
  let extensions := normalizeExtensions extensions0
  match searchWalkGo extensions mutexExtensions walk [] [] with
  | Except.error e => Except.error e
  | Except.ok (disc, out) =>
    Except.ok (out ++
      if mutexExtensions then
        disc.map (fun pe => pathToUnicode ⟨pe.1.data ++ '.' :: pe.2.data⟩)
      else [])

/-! ### Concrete filesystems for closed-form evaluations -/

/-- A symlink-free `os.path.realpath` on already-canonical input: the
identity resolver. -/
def idRealpath : String → String := fun s => s

/-! ### Characterizing `commonprefix` on two paths -/

/-- Longest common leading run of two lists of segments. -/
def commonPrefixList : List (List Char) → List (List Char) → List (List Char)
  | a :: as, b :: bs => if a = b then a :: commonPrefixList as bs else []
  | _, _ => []

/-- `zip` of exactly two lists, as lists of two-element levels. -/
def zipPair : List (List Char) → List (List Char) → List (List (List Char))
  | a :: as, b :: bs => [a, b] :: zipPair as bs
  | _, _ => []

/-! ### Normal form of `normpath` component lists

The component loop of `posixpath.normpath` always produces a list of the
shape `['..'] * m ++ rest` where the components of `rest` are nonempty,
different from `'.'` and `'..'`, and slash-free, and `m = 0` for absolute
paths.  Re-running the loop on such a list is the identity; this gives
idempotence of `normpath` and fixpoint lemmas for canonical paths. -/

/-- A component that the loop can keep: nonempty, not `'.'`, slash-free. -/
def GoodComp (c : List Char) : Prop := c ≠ [] ∧ c ≠ ['.'] ∧ '/' ∉ c

/-- Normal form of the accumulated component list. -/
def NFcomps (initAbs : Bool) (l : List (List Char)) : Prop :=
  ∃ m rest, l = List.replicate m dd ++ rest ∧ dd ∉ rest ∧
    (∀ c ∈ l, GoodComp c) ∧ (initAbs = true → m = 0)

/-! ### Canonical absolute paths -/

/-- A clean path component: nonempty, none of `'.'`/`'..'`, free of slashes
and backslashes. -/
def GoodC (c : List Char) : Prop :=
  c ≠ [] ∧ c ≠ ['.'] ∧ c ≠ dd ∧ '/' ∉ c ∧ '\\' ∉ c

instance (c : List Char) : Decidable (GoodC c) :=
  inferInstanceAs (Decidable (c ≠ [] ∧ c ≠ ['.'] ∧ c ≠ dd ∧ '/' ∉ c ∧ '\\' ∉ c))

/-- A canonical absolute path: a single leading slash followed by clean
components (the shape `os.path.realpath` produces on a live filesystem). -/
def CanonAbs (s : String) : Prop :=
  ∃ comps, s.data = '/' :: joinChar '/' comps ∧ ∀ c ∈ comps, GoodC c

/-- A filesystem where the working directory is `/cwd`, `data` is a real
directory under it and `data/x.obj` a real file: `realpath` resolves the
relative names to absolute ones. -/
def rpRel : String → String := fun s =>
  if s = "data" then "/cwd/data"
  else if s = "data/x.obj" then "/cwd/data/x.obj"
  else s

/-- `os.path.isfile` for the `rpRel` filesystem. -/
def isfileRel : String → Bool := fun s =>
  s = "data/x.obj" || s = "/cwd/data/x.obj"

/-- A filesystem with one file `foo/bar.obj` under the working directory
`/cwd`. -/
def rpFoo : String → String := fun s =>
  if s = "foo/bar.obj" then "/cwd/foo/bar.obj" else s

/-- `os.path.isfile` for the `rpFoo` filesystem: only the relative name
`foo/bar.obj` (resolved against the working directory) is a file. -/
def isfileFoo : String → Bool := fun s => s = "foo/bar.obj"

/-- `os.path.isfile` for a filesystem with the single file `/j/x`. -/
def isfileJail : String → Bool := fun s => s = "/j/x"

instance (α β : Type) [DecidableEq α] [DecidableEq β] :
    DecidableEq (Except α β) := fun a b =>
  match a, b with
  | Except.ok x, Except.ok y =>
    match decEq x y with
    | isTrue h => isTrue (by rw [h])
    | isFalse h => isFalse (by intro hc; cases hc; exact h rfl)
  | Except.error x, Except.error y =>
    match decEq x y with
    | isTrue h => isTrue (by rw [h])
    | isFalse h => isFalse (by intro hc; cases hc; exact h rfl)
  | Except.ok _, Except.error _ => isFalse (by intro hc; cases hc)
  | Except.error _, Except.ok _ => isFalse (by intro hc; cases hc)

theorem splitChar_cons (sep c : Char) (cs : List Char) :
    splitChar sep (c :: cs) =
      match splitChar sep cs with
      | [] => [[]]
      | h :: t => if c = sep then [] :: h :: t else (c :: h) :: t := rfl

theorem joinChar_cons₂ (sep : Char) (x y : List Char) (t : List (List Char)) :
    joinChar sep (x :: y :: t) = x ++ sep :: joinChar sep (y :: t) := rfl

theorem splitChar_ne_nil (sep : Char) (l : List Char) : splitChar sep l ≠ [] := by
  cases l with
  | nil => simp [splitChar]
  | cons c cs =>
    rw [splitChar_cons]
    cases splitChar sep cs with
    | nil => simp
    | cons h t =>
      by_cases hc : c = sep <;> simp [hc]

theorem joinChar_splitChar (sep : Char) (l : List Char) :
    joinChar sep (splitChar sep l) = l := by
  induction l with
  | nil => rfl
  | cons c cs ih =>
    rw [splitChar_cons]
    cases hs : splitChar sep cs with
    | nil => exact absurd hs (splitChar_ne_nil sep cs)
    | cons h t =>
      rw [hs] at ih
      by_cases hc : c = sep
      · subst hc
        cases t with
        | nil => simpa [joinChar] using ih
        | cons u t' => simpa [joinChar] using ih
      · simp only [hc, if_false]
        cases t with
        | nil => simpa [joinChar] using ih
        | cons u t' =>
          rw [joinChar_cons₂] at ih ⊢
          rw [List.cons_append, ih]

theorem sep_not_mem_splitChar (sep : Char) (l : List Char) :
    ∀ p ∈ splitChar sep l, sep ∉ p := by
  induction l with
  | nil => intro p hp; simp [splitChar] at hp; simp [hp]
  | cons c cs ih =>
    intro p hp
    rw [splitChar_cons] at hp
    cases hs : splitChar sep cs with
    | nil => exact absurd hs (splitChar_ne_nil sep cs)
    | cons h t =>
      rw [hs] at hp
      have ihh : sep ∉ h := ih h (hs ▸ List.mem_cons_self h t)
      by_cases hc : c = sep
      · simp only [hc, if_true, List.mem_cons] at hp
        rcases hp with hp | hp | hp
        · simp [hp]
        · exact hp ▸ ihh
        · exact ih p (hs ▸ List.mem_cons_of_mem h hp)
      · simp only [hc, if_false, List.mem_cons] at hp
        rcases hp with hp | hp
        · subst hp
          intro hmem
          rcases List.mem_cons.mp hmem with h1 | h1
          · exact hc h1.symm
          · exact ihh h1
        · exact ih p (hs ▸ List.mem_cons_of_mem h hp)

theorem mem_of_mem_splitChar (sep : Char) (l : List Char) :
    ∀ p ∈ splitChar sep l, ∀ c ∈ p, c ∈ l := by
  induction l with
  | nil => intro p hp; simp [splitChar] at hp; simp [hp]
  | cons a cs ih =>
    intro p hp c hc
    rw [splitChar_cons] at hp
    cases hs : splitChar sep cs with
    | nil => exact absurd hs (splitChar_ne_nil sep cs)
    | cons h t =>
      rw [hs] at hp
      have ihh : ∀ x ∈ h, x ∈ cs := ih h (hs ▸ List.mem_cons_self h t)
      by_cases ha : a = sep
      · simp only [ha, if_true, List.mem_cons] at hp
        rcases hp with hp | hp | hp
        · simp [hp] at hc
        · exact List.mem_cons_of_mem a (ihh c (hp ▸ hc))
        · exact List.mem_cons_of_mem a (ih p (hs ▸ List.mem_cons_of_mem h hp) c hc)
      · simp only [ha, if_false, List.mem_cons] at hp
        rcases hp with hp | hp
        · subst hp
          rcases List.mem_cons.mp hc with h1 | h1
          · exact h1 ▸ List.mem_cons_self a cs
          · exact List.mem_cons_of_mem a (ihh c h1)
        · exact List.mem_cons_of_mem a (ih p (hs ▸ List.mem_cons_of_mem h hp) c hc)

/-- Splitting a separator-free string gives a single piece. -/
theorem splitChar_of_not_mem (sep : Char) (x : List Char) (hx : sep ∉ x) :
    splitChar sep x = [x] := by
  induction x with
  | nil => rfl
  | cons c cs ih =>
    have hc : c ≠ sep := fun h => hx (h ▸ List.mem_cons_self c cs)
    have hcs : sep ∉ cs := fun h => hx (List.mem_cons_of_mem c h)
    rw [splitChar_cons, ih hcs]
    simp [hc]

theorem splitChar_append (sep : Char) (x r : List Char) (hx : sep ∉ x) :
    splitChar sep (x ++ sep :: r) = x :: splitChar sep r := by
  induction x with
  | nil =>
    rw [List.nil_append, splitChar_cons]
    cases hs : splitChar sep r with
    | nil => exact absurd hs (splitChar_ne_nil sep r)
    | cons h t => simp
  | cons c cs ih =>
    have hc : c ≠ sep := fun h => hx (h ▸ List.mem_cons_self c cs)
    have hcs : sep ∉ cs := fun h => hx (List.mem_cons_of_mem c h)
    rw [List.cons_append, splitChar_cons, ih hcs]
    cases hs : splitChar sep r with
    | nil => exact absurd hs (splitChar_ne_nil sep r)
    | cons h t => simp [hc]

/-- Splitting inverts joining when the pieces are separator-free. -/
theorem splitChar_joinChar (sep : Char) :
    ∀ ls : List (List Char), ls ≠ [] → (∀ p ∈ ls, sep ∉ p) →
      splitChar sep (joinChar sep ls) = ls := by
  intro ls
  induction ls with
  | nil => intro h; exact absurd rfl h
  | cons x t ih =>
    intro _ hfree
    cases t with
    | nil =>
      simpa [joinChar] using splitChar_of_not_mem sep x (hfree x (List.mem_cons_self x []))
    | cons y t' =>
      have hx : sep ∉ x := hfree x (List.mem_cons_self x (y :: t'))
      have hrest : ∀ p ∈ y :: t', sep ∉ p := fun p hp => hfree p (List.mem_cons_of_mem x hp)
      rw [joinChar_cons₂, splitChar_append sep x _ hx, ih (by simp) hrest]

/-- `joinChar` over an append of two nonempty lists of pieces. -/
theorem joinChar_append (sep : Char) :
    ∀ (xs ys : List (List Char)), xs ≠ [] → ys ≠ [] →
      joinChar sep (xs ++ ys) = joinChar sep xs ++ sep :: joinChar sep ys := by
  intro xs
  induction xs with
  | nil => intro ys h; exact absurd rfl h
  | cons x t ih =>
    intro ys _ hys
    cases t with
    | nil =>
      cases ys with
      | nil => exact absurd rfl hys
      | cons y t' => simp [joinChar]
    | cons u t' =>
      have ihe : joinChar sep (u :: (t' ++ ys)) =
          joinChar sep (u :: t') ++ sep :: joinChar sep ys := by
        rw [← List.cons_append]
        exact ih ys (by simp) hys
      rw [List.cons_append, List.cons_append, joinChar_cons₂, ihe, joinChar_cons₂]
      simp

theorem mem_joinChar (sep : Char) :
    ∀ (ls : List (List Char)), ∀ c ∈ joinChar sep ls, c = sep ∨ ∃ p ∈ ls, c ∈ p := by
  intro ls
  induction ls with
  | nil => intro c hc; simp [joinChar] at hc
  | cons x t ih =>
    intro c hc
    cases t with
    | nil =>
      simp only [joinChar] at hc
      exact Or.inr ⟨x, List.mem_cons_self x [], hc⟩
    | cons y t' =>
      rw [joinChar_cons₂] at hc
      rcases List.mem_append.mp hc with hc | hc
      · exact Or.inr ⟨x, List.mem_cons_self x (y :: t'), hc⟩
      · rcases List.mem_cons.mp hc with hc | hc
        · exact Or.inl hc
        · rcases ih c hc with h | ⟨p, hp, hcp⟩
          · exact Or.inl h
          · exact Or.inr ⟨p, List.mem_cons_of_mem x hp, hcp⟩

theorem transposeTruncAux_pair (n : Nat) :
    ∀ a b : List (List Char), a.length ≤ n →
      transposeTruncAux n [a, b] = zipPair a b := by
  induction n with
  | zero =>
    intro a b ha
    have : a = [] := List.length_eq_zero.mp (Nat.le_zero.mp ha)
    subst this
    rfl
  | succ n ih =>
    intro a b ha
    cases a with
    | nil => rfl
    | cons x as =>
      cases b with
      | nil => rfl
      | cons y bs =>
        simp only [transposeTruncAux, List.any_cons, List.isEmpty_cons, zipPair]
        simp only [List.length_cons, Nat.succ_le_succ_iff] at ha
        simp only [List.map_cons, List.map_nil, List.headD, List.tail]
        rw [ih as bs ha]
        rfl

theorem takeWhile_zipPair (a : List (List Char)) :
    ∀ b, ((zipPair a b).takeWhile allnamesequal).map (·.headD []) =
      commonPrefixList a b := by
  induction a with
  | nil => intro b; rfl
  | cons x as ih =>
    intro b
    cases b with
    | nil => rfl
    | cons y bs =>
      simp only [zipPair, commonPrefixList]
      by_cases hxy : x = y
      · subst hxy
        have hlvl : allnamesequal [x, x] = true := by
          simp [allnamesequal]
        rw [List.takeWhile_cons_of_pos hlvl, List.map_cons, ih bs]
        simp
      · have hlvl : allnamesequal [x, y] = true → False := by
          simp [allnamesequal]
          intro h
          exact hxy h
        rw [List.takeWhile_cons_of_neg (by simpa using hlvl), if_neg hxy]
        rfl

/-- `commonprefix` on exactly two paths is the joined common segment run. -/
theorem commonprefixDirs_pair (x y : String) (sep : Char) :
    commonprefixDirs [x, y] sep =
      ⟨joinChar sep (commonPrefixList (splitChar sep x.data) (splitChar sep y.data))⟩ := by
  unfold commonprefixDirs transposeTrunc
  simp only [List.map_cons, List.map_nil]
  rw [transposeTruncAux_pair (splitChar sep x.data).length _ _ (Nat.le_refl _),
    takeWhile_zipPair]

theorem commonPrefixList_self (l : List (List Char)) : commonPrefixList l l = l := by
  induction l with
  | nil => rfl
  | cons x t ih => simp [commonPrefixList, ih]

/-- `commonprefix([x, x]) == x`. -/
theorem commonprefixDirs_self (x : String) (sep : Char) :
    commonprefixDirs [x, x] sep = x := by
  rw [commonprefixDirs_pair, commonPrefixList_self, joinChar_splitChar]

theorem commonPrefixList_mem (a : List (List Char)) :
    ∀ b, ∀ c ∈ commonPrefixList a b, c ∈ b := by
  induction a with
  | nil => intro b c hc; simp [commonPrefixList] at hc
  | cons x as ih =>
    intro b c hc
    cases b with
    | nil => simp [commonPrefixList] at hc
    | cons y bs =>
      simp only [commonPrefixList] at hc
      by_cases hxy : x = y
      · rw [if_pos hxy] at hc
        rcases List.mem_cons.mp hc with hc | hc
        · exact hc ▸ hxy ▸ List.mem_cons_self y bs
        · exact List.mem_cons_of_mem y (ih bs c hc)
      · rw [if_neg hxy] at hc
        simp at hc

theorem commonPrefixList_eq_right (a : List (List Char)) :
    ∀ b, commonPrefixList a b = b → ∃ rest, a = b ++ rest := by
  induction a with
  | nil =>
    intro b hb
    cases b with
    | nil => exact ⟨[], rfl⟩
    | cons y bs => simp [commonPrefixList] at hb
  | cons x as ih =>
    intro b hb
    cases b with
    | nil => exact ⟨x :: as, rfl⟩
    | cons y bs =>
      simp only [commonPrefixList] at hb
      by_cases hxy : x = y
      · rw [if_pos hxy] at hb
        have h2 : commonPrefixList as bs = bs := by
          have := congrArg List.tail hb
          simpa using this
        obtain ⟨rest, hrest⟩ := ih bs h2
        exact ⟨rest, by rw [List.cons_append, ← hrest, hxy]⟩
      · rw [if_neg hxy] at hb
        exact absurd hb (by simp)

/-! ### Generic list helper lemmas -/

theorem getLast?_cons_elim {α : Type} (x : α) (xs : List α) :
    (x :: xs).getLast? =
      match xs.getLast? with
      | none => some x
      | some y => some y := by
  cases xs with
  | nil => rfl
  | cons u us =>
    rw [List.getLast?_cons_cons]
    have : (u :: us).getLast?.isSome := by
      rw [List.getLast?_isSome]
      simp
    obtain ⟨y, hy⟩ := Option.isSome_iff_exists.mp this
    rw [hy]

/-- The `for p in l: if pred(p): acc = p` loop keeps the LAST match. -/
theorem foldl_lastMatch (pred : String → Bool) (l : List String) :
    ∀ acc : Option String,
      l.foldl (fun a p => if pred p then some p else a) acc =
        match (l.filter pred).getLast? with
        | none => acc
        | some x => some x := by
  induction l with
  | nil => intro acc; rfl
  | cons p t ih =>
    intro acc
    by_cases hp : pred p
    · rw [List.foldl_cons, if_pos hp, List.filter_cons_of_pos hp, ih,
        getLast?_cons_elim]
      cases (t.filter pred).getLast? <;> rfl
    · rw [List.foldl_cons, if_neg hp, List.filter_cons_of_neg hp, ih]

/-- The `findFile` loop returns the formatted join for the FIRST search path
whose join exists. -/
theorem findFileGo_eq_find? (isfile : String → Bool) (relPath : String)
    (l : List String) :
    findFileGo isfile relPath l =
      (l.find? (fun p => isfile (joinPath p relPath))).map
        (fun p => formatPathStr (joinPath p relPath)) := by
  induction l with
  | nil => rfl
  | cons p t ih =>
    have hfind : List.find? (fun p => isfile (joinPath p relPath)) (p :: t) =
        if isfile (joinPath p relPath) then some p
        else List.find? (fun p => isfile (joinPath p relPath)) t := by
      cases h : isfile (joinPath p relPath) <;> simp [List.find?, h]
    by_cases hp : isfile (joinPath p relPath)
    · simp [findFileGo, hp, hfind]
    · simp [findFileGo, hp, hfind, ih]

theorem nfcomps_nil (a : Bool) : NFcomps a [] :=
  ⟨0, [], rfl, by simp, by simp, fun _ => rfl⟩

theorem goodComp_dd : GoodComp dd := by
  refine ⟨by simp [dd], by simp [dd], ?_⟩
  simp [dd]

theorem stepComp_preserves (a : Bool) (acc : List (List Char)) (comp : List Char)
    (hfree : '/' ∉ comp) (hnf : NFcomps a acc) : NFcomps a (stepComp a acc comp) := by
  obtain ⟨m, rest, hsplit, hdd, hgood, habs⟩ := hnf
  unfold stepComp
  by_cases h0 : comp = [] ∨ comp = ['.']
  · rw [if_pos h0]; exact ⟨m, rest, hsplit, hdd, hgood, habs⟩
  · rw [if_neg h0]
    push_neg at h0
    by_cases happ : comp ≠ dd ∨ (a = false ∧ acc = []) ∨ acc.getLast? = some dd
    · rw [if_pos happ]
      by_cases hcomp : comp = dd
      · subst hcomp
        rcases happ with h | h | h
        · exact absurd rfl h
        · -- `'..'` appended to an empty accumulator of a relative path
          obtain ⟨ha, hacc⟩ := h
          subst hacc
          refine ⟨1, [], by simp [List.replicate], by simp, ?_, ?_⟩
          · intro c hc
            simp at hc
            exact hc ▸ goodComp_dd
          · intro h1; rw [h1] at ha; cases ha
        · -- `'..'` appended after a trailing `'..'`
          have hrest : rest = [] := by
            by_contra hne
            rw [hsplit, List.getLast?_append_of_ne_nil _ hne] at h
            exact hdd (List.mem_of_getLast?_eq_some h)
          subst hrest
          rw [List.append_nil] at hsplit
          subst hsplit
          have hm : m ≠ 0 := by
            intro h0'
            rw [h0'] at h
            simp [List.replicate] at h
          refine ⟨m + 1, [], ?_, by simp, ?_, ?_⟩
          · rw [List.append_nil, List.replicate_succ']
          · intro c hc
            rcases List.mem_append.mp hc with hc | hc
            · exact hgood c hc
            · simp at hc; exact hc ▸ goodComp_dd
          · intro h1
            exact absurd (habs h1) hm
      · -- an ordinary component appended
        refine ⟨m, rest ++ [comp], by rw [hsplit, List.append_assoc], ?_, ?_, habs⟩
        · intro hmem
          rcases List.mem_append.mp hmem with h | h
          · exact hdd h
          · simp at h; exact hcomp h.symm
        · intro c hc
          rcases List.mem_append.mp hc with h | h
          · exact hgood c h
          · simp at h; exact h ▸ ⟨h0.1, h0.2, hfree⟩
    · rw [if_neg happ]
      push_neg at happ
      obtain ⟨hcomp, hne, hlast⟩ := happ
      by_cases hrest : rest = []
      · subst hrest
        rw [List.append_nil] at hsplit
        subst hsplit
        have hm : m = 0 := by
          by_contra hm0
          obtain ⟨m', rfl⟩ := Nat.exists_eq_succ_of_ne_zero hm0
          rw [List.getLast?_replicate] at hlast
          simp at hlast
        rw [hm]
        exact nfcomps_nil a
      · refine ⟨m, rest.dropLast, ?_, ?_, ?_, habs⟩
        · rw [hsplit, List.dropLast_append_of_ne_nil _ hrest]
        · intro hmem
          exact hdd ((List.dropLast_sublist rest).subset hmem)
        · intro c hc
          rw [hsplit, List.dropLast_append_of_ne_nil _ hrest] at hc
          have : c ∈ List.replicate m dd ++ rest := by
            rcases List.mem_append.mp hc with h | h
            · exact List.mem_append.mpr (Or.inl h)
            · exact List.mem_append.mpr (Or.inr ((List.dropLast_sublist rest).subset h))
          exact hgood c (hsplit ▸ this)

theorem nfcomps_foldl (a : Bool) (comps : List (List Char))
    (hfree : ∀ c ∈ comps, '/' ∉ c) :
    ∀ acc, NFcomps a acc → NFcomps a (comps.foldl (stepComp a) acc) := by
  induction comps with
  | nil => intro acc h; exact h
  | cons c t ih =>
    intro acc h
    rw [List.foldl_cons]
    exact ih (fun x hx => hfree x (List.mem_cons_of_mem c hx))
      _ (stepComp_preserves a acc c (hfree c (List.mem_cons_self c t)) h)

/-- Refolding ordinary components appends them unchanged. -/
theorem foldl_stepComp_plain (a : Bool) (rest : List (List Char))
    (hrest : ∀ c ∈ rest, GoodComp c ∧ c ≠ dd) :
    ∀ acc, rest.foldl (stepComp a) acc = acc ++ rest := by
  induction rest with
  | nil => intro acc; simp
  | cons c t ih =>
    intro acc
    obtain ⟨⟨hne, hdot, _⟩, hnd⟩ := hrest c (List.mem_cons_self c t)
    rw [List.foldl_cons]
    have h1 : stepComp a acc c = acc ++ [c] := by
      unfold stepComp
      rw [if_neg (by simp [hne, hdot]), if_pos (Or.inl hnd)]
    rw [h1, ih (fun x hx => hrest x (List.mem_cons_of_mem c hx))]
    simp

/-- Refolding a run of `'..'` components of a relative path keeps them. -/
theorem foldl_stepComp_dd (m : Nat) :
    ∀ k, (List.replicate m dd).foldl (stepComp false) (List.replicate k dd) =
      List.replicate (k + m) dd := by
  induction m with
  | zero => intro k; simp
  | succ m ih =>
    intro k
    rw [List.replicate_succ, List.foldl_cons]
    have h1 : stepComp false (List.replicate k dd) dd = List.replicate (k + 1) dd := by
      unfold stepComp
      rw [if_neg (by simp [dd])]
      cases k with
      | zero => rw [if_pos (Or.inr (Or.inl ⟨rfl, rfl⟩))]; simp [List.replicate]
      | succ k' =>
        rw [if_pos (Or.inr (Or.inr (by rw [List.getLast?_replicate]; simp)))]
        rw [← List.replicate_succ']
    rw [h1, ih (k + 1)]
    congr 1
    omega

/-- Refolding a normal-form component list is the identity. -/
theorem foldl_stepComp_nf (a : Bool) (l : List (List Char)) (hnf : NFcomps a l) :
    l.foldl (stepComp a) [] = l := by
  obtain ⟨m, rest, hsplit, hdd, hgood, habs⟩ := hnf
  have hrest : ∀ c ∈ rest, GoodComp c ∧ c ≠ dd := by
    intro c hc
    refine ⟨hgood c (hsplit ▸ List.mem_append.mpr (Or.inr hc)), ?_⟩
    intro h; exact hdd (h ▸ hc)
  subst hsplit
  rw [List.foldl_append]
  cases a with
  | true =>
    rw [habs rfl]
    simp only [List.replicate, List.foldl_nil, List.nil_append]
    exact foldl_stepComp_plain true rest hrest []
  | false =>
    have h2 := foldl_stepComp_dd m 0
    simp only [Nat.zero_add, List.replicate] at h2
    rw [h2, foldl_stepComp_plain false rest hrest]

/-- Skipping the empty components produced by leading slashes. -/
theorem foldl_stepComp_empties (a : Bool) (k : Nat) :
    ∀ acc, (List.replicate k ([] : List Char)).foldl (stepComp a) acc = acc := by
  induction k with
  | zero => intro acc; rfl
  | succ k ih =>
    intro acc
    rw [List.replicate_succ, List.foldl_cons]
    have h1 : stepComp a acc [] = acc := by
      unfold stepComp
      rw [if_pos (Or.inl rfl)]
    rw [h1, ih]

theorem initSlashes_le_two (l : List Char) : initSlashes l ≤ 2 := by
  unfold initSlashes
  split_ifs <;> omega

theorem splitChar_sep_cons (sep : Char) (t : List Char) :
    splitChar sep (sep :: t) = [] :: splitChar sep t := by
  rw [splitChar_cons]
  cases hs : splitChar sep t with
  | nil => exact absurd hs (splitChar_ne_nil sep t)
  | cons h t' => simp

theorem splitChar_replicate_sep (sep : Char) (k : Nat) :
    ∀ X, splitChar sep (List.replicate k sep ++ X) =
      List.replicate k ([] : List Char) ++ splitChar sep X := by
  induction k with
  | zero => intro X; simp
  | succ k ih =>
    intro X
    rw [List.replicate_succ, List.cons_append, splitChar_sep_cons, ih]
    simp [List.replicate_succ]

theorem joinChar_cons_ex (sep : Char) (x : List Char) (t : List (List Char)) :
    ∃ r, joinChar sep (x :: t) = x ++ r := by
  cases t with
  | nil => exact ⟨[], by simp [joinChar]⟩
  | cons y t' => exact ⟨sep :: joinChar sep (y :: t'), rfl⟩

theorem initSlashes_shape (k : Nat) (X : List Char) (hk : k ≤ 2)
    (hX : ∀ c, X.head? = some c → c ≠ '/')
    (hne : List.replicate k '/' ++ X ≠ []) :
    initSlashes (List.replicate k '/' ++ X) = k := by
  interval_cases k
  · cases X with
    | nil => simp at hne
    | cons c X' =>
      have hc : c ≠ '/' := hX c rfl
      simp [initSlashes, List.take, hc]
  · cases X with
    | nil => simp [initSlashes, List.take]
    | cons c X' =>
      have hc : c ≠ '/' := hX c rfl
      simp [initSlashes, List.replicate, List.take, hc]
  · cases X with
    | nil => simp [initSlashes, List.replicate, List.take]
    | cons c X' =>
      have hc : c ≠ '/' := hX c rfl
      simp [initSlashes, List.replicate, List.take, hc]

theorem normpathL_dot : normpathL ['.'] = ['.'] := by decide

/-- `normpath` is the identity on its own outputs (shape
`'/' * k ++ join(nc)` with `nc` in normal form). -/
theorem normpathL_normOut (k : Nat) (nc : List (List Char)) (hk : k ≤ 2)
    (hnf : NFcomps (decide (k ≠ 0)) nc)
    (hkn : ¬(k = 0 ∧ nc = [])) :
    normpathL (List.replicate k '/' ++ joinChar '/' nc) =
      List.replicate k '/' ++ joinChar '/' nc := by
  have hgood : ∀ c ∈ nc, GoodComp c := by
    obtain ⟨m, rest, hsplit, hdd, hg, habs⟩ := hnf
    exact hg
  -- head of the joined component part is not a slash
  have hX : ∀ c, (joinChar '/' nc).head? = some c → c ≠ '/' := by
    intro c hc
    cases nc with
    | nil => simp [joinChar] at hc
    | cons c₀ t =>
      obtain ⟨hne0, _, hfree0⟩ := hgood c₀ (List.mem_cons_self c₀ t)
      obtain ⟨r, hr⟩ := joinChar_cons_ex '/' c₀ t
      rw [hr] at hc
      cases c₀ with
      | nil => exact absurd rfl hne0
      | cons ch c₀' =>
        simp at hc
        intro h
        exact hfree0 (by rw [hc, h]; exact List.mem_cons_self '/' c₀')
  have hpne : List.replicate k '/' ++ joinChar '/' nc ≠ [] := by
    intro h
    rcases List.append_eq_nil.mp h with ⟨h1, h2⟩
    cases nc with
    | nil =>
      have : k = 0 := by
        by_contra hk0
        obtain ⟨k', rfl⟩ := Nat.exists_eq_succ_of_ne_zero hk0
        simp [List.replicate] at h1
      exact hkn ⟨this, rfl⟩
    | cons c₀ t =>
      obtain ⟨hne0, _, _⟩ := hgood c₀ (List.mem_cons_self c₀ t)
      obtain ⟨r, hr⟩ := joinChar_cons_ex '/' c₀ t
      rw [hr] at h2
      exact hne0 (List.append_eq_nil.mp h2).1
  rw [normpathL, if_neg hpne, initSlashes_shape k _ hk hX hpne,
    splitChar_replicate_sep]
  simp only []
  have hsplitX : (splitChar '/' (joinChar '/' nc)).foldl
      (stepComp (decide (k ≠ 0))) [] = nc := by
    cases hnc : nc with
    | nil => simp [joinChar, splitChar, stepComp]
    | cons c₀ t =>
      rw [← hnc, splitChar_joinChar '/' nc (by rw [hnc]; simp)
        (fun p hp => (hgood p hp).2.2)]
      exact foldl_stepComp_nf _ nc hnf
  rw [List.foldl_append, foldl_stepComp_empties, hsplitX, if_neg hpne]

theorem normpathL_idem (l : List Char) : normpathL (normpathL l) = normpathL l := by
  by_cases hl : l = []
  · subst hl
    have h0 : normpathL [] = ['.'] := rfl
    rw [h0, normpathL_dot]
  · have hnf : NFcomps (decide (initSlashes l ≠ 0))
        ((splitChar '/' l).foldl (stepComp (decide (initSlashes l ≠ 0))) []) :=
      nfcomps_foldl _ _ (fun c hc => sep_not_mem_splitChar '/' l c hc) []
        (nfcomps_nil _)
    have h1 : normpathL l =
        if List.replicate (initSlashes l) '/' ++ joinChar '/'
            ((splitChar '/' l).foldl (stepComp (decide (initSlashes l ≠ 0))) []) = []
        then ['.']
        else List.replicate (initSlashes l) '/' ++ joinChar '/'
            ((splitChar '/' l).foldl (stepComp (decide (initSlashes l ≠ 0))) []) := by
      rw [normpathL, if_neg hl]
    by_cases hp : List.replicate (initSlashes l) '/' ++ joinChar '/'
        ((splitChar '/' l).foldl (stepComp (decide (initSlashes l ≠ 0))) []) = []
    · rw [h1, if_pos hp, normpathL_dot]
    · rw [h1, if_neg hp]
      refine normpathL_normOut (initSlashes l) _ (initSlashes_le_two l) hnf ?_
      intro ⟨hk0, hnc0⟩
      rw [hnc0, hk0] at hp
      simp [joinChar] at hp

theorem stepComp_mem (a : Bool) (acc : List (List Char)) (c x : List Char)
    (hx : x ∈ stepComp a acc c) : x ∈ acc ∨ x = c := by
  unfold stepComp at hx
  split_ifs at hx
  · exact Or.inl hx
  · rcases List.mem_append.mp hx with h | h
    · exact Or.inl h
    · simp at h; exact Or.inr h
  · exact Or.inl ((List.dropLast_sublist acc).subset hx)

theorem foldl_stepComp_mem (a : Bool) (comps : List (List Char)) :
    ∀ acc x, x ∈ comps.foldl (stepComp a) acc → x ∈ acc ∨ x ∈ comps := by
  induction comps with
  | nil => intro acc x hx; exact Or.inl hx
  | cons c t ih =>
    intro acc x hx
    rw [List.foldl_cons] at hx
    rcases ih _ x hx with h | h
    · rcases stepComp_mem a acc c x h with h1 | h1
      · exact Or.inl h1
      · exact Or.inr (h1 ▸ List.mem_cons_self c t)
    · exact Or.inr (List.mem_cons_of_mem c h)

/-- Every character of `normpath(l)` is a character of `l`, a slash or a
dot. -/
theorem mem_normpathL (c : Char) (l : List Char) (hc : c ∈ normpathL l) :
    c ∈ l ∨ c = '/' ∨ c = '.' := by
  unfold normpathL at hc
  by_cases hl : l = []
  · rw [if_pos hl] at hc
    simp at hc
    exact Or.inr (Or.inr hc)
  · rw [if_neg hl] at hc
    simp only [] at hc
    by_cases hp : List.replicate (initSlashes l) '/' ++ joinChar '/'
        ((splitChar '/' l).foldl (stepComp (decide (initSlashes l ≠ 0))) []) = []
    · rw [if_pos hp] at hc
      simp at hc
      exact Or.inr (Or.inr hc)
    · rw [if_neg hp] at hc
      rcases List.mem_append.mp hc with h | h
      · exact Or.inr (Or.inl (List.eq_of_mem_replicate h))
      · rcases mem_joinChar '/' _ c h with h1 | ⟨p, hp1, hcp⟩
        · exact Or.inr (Or.inl h1)
        · rcases foldl_stepComp_mem _ _ [] p hp1 with h2 | h2
          · simp at h2
          · exact Or.inl (mem_of_mem_splitChar '/' l p h2 c hcp)

theorem replaceBS_eq_self (l : List Char) (h : '\\' ∉ l) : replaceBS l = l := by
  induction l with
  | nil => rfl
  | cons c t ih =>
    have hc : c ≠ '\\' := fun hcc => h (hcc ▸ List.mem_cons_self c t)
    have ht : '\\' ∉ t := fun htt => h (List.mem_cons_of_mem c htt)
    show (if c = '\\' then '/' else c) :: replaceBS t = c :: t
    rw [if_neg hc, ih ht]

theorem bs_not_mem_normpathL (l : List Char) (h : '\\' ∉ l) :
    '\\' ∉ normpathL l := by
  intro hmem
  rcases mem_normpathL '\\' l hmem with h1 | h1 | h1
  · exact h h1
  · cases h1
  · cases h1

/-- `formatPath` is idempotent on paths that contain no backslash. -/
theorem formatPathStr_idem (p : String) (h : '\\' ∉ p.data) :
    formatPathStr (formatPathStr p) = formatPathStr p := by
  have h1 : formatPathStr p = ⟨normpathL p.data⟩ := by
    unfold formatPathStr pathToUnicode
    rw [replaceBS_eq_self _ (bs_not_mem_normpathL p.data h)]
  rw [h1]
  unfold formatPathStr pathToUnicode
  have h2 : '\\' ∉ normpathL p.data := bs_not_mem_normpathL p.data h
  rw [show (⟨normpathL p.data⟩ : String).data = normpathL p.data from rfl,
    normpathL_idem, replaceBS_eq_self _ h2]

theorem canonAbs_bs_not_mem (s : String) (h : CanonAbs s) : '\\' ∉ s.data := by
  obtain ⟨comps, hdata, hgood⟩ := h
  rw [hdata]
  intro hmem
  rcases List.mem_cons.mp hmem with h1 | h1
  · cases h1
  · rcases mem_joinChar '/' comps '\\' h1 with h2 | ⟨p, hp, hcp⟩
    · cases h2
    · exact (hgood p hp).2.2.2.2 hcp

theorem normpathL_canonAbs (s : String) (h : CanonAbs s) :
    normpathL s.data = s.data := by
  obtain ⟨comps, hdata, hgood⟩ := h
  have hnf : NFcomps (decide ((1 : Nat) ≠ 0)) comps := by
    refine ⟨0, comps, by simp, ?_, ?_, fun _ => rfl⟩
    · intro hmem
      exact (hgood dd hmem).2.2.1 rfl
    · intro c hc
      obtain ⟨h1, h2, _, h4, _⟩ := hgood c hc
      exact ⟨h1, h2, h4⟩
  have h1 : s.data = List.replicate 1 '/' ++ joinChar '/' comps := by
    rw [hdata]; rfl
  rw [h1]
  exact normpathL_normOut 1 comps (by omega) hnf (by simp)

theorem formatPathStr_canonAbs (s : String) (h : CanonAbs s) :
    formatPathStr s = s := by
  unfold formatPathStr pathToUnicode
  rw [normpathL_canonAbs s h, replaceBS_eq_self _ (canonAbs_bs_not_mem s h)]

theorem isAbs_canonAbs (s : String) (h : CanonAbs s) : isAbs s = true := by
  obtain ⟨comps, hdata, _⟩ := h
  unfold isAbs
  rw [hdata]
  simp [List.take]

theorem abspath_canonAbs (cwd : String) (s : String) (h : CanonAbs s) :
    abspath cwd s = s := by
  unfold abspath
  rw [if_pos (isAbs_canonAbs s h)]
  unfold normpath
  rw [normpathL_canonAbs s h]

theorem canonicalPath_canonAbs (rp : String → String) (s : String)
    (hrp : rp s = s) (h : CanonAbs s) : canonicalPath rp s = s := by
  unfold canonicalPath
  rw [hrp, formatPathStr_canonAbs s h]

theorem string_data_eq (s t : String) (h : s.data = t.data) : s = t := by
  cases s; cases t; cases h; rfl

theorem splitChar_canonAbs_filter (s : String) (comps : List (List Char))
    (hdata : s.data = '/' :: joinChar '/' comps) (hgood : ∀ c ∈ comps, GoodC c) :
    (splitChar '/' s.data).filter (· ≠ []) = comps := by
  rw [hdata, splitChar_sep_cons]
  cases hcomps : comps with
  | nil => simp [joinChar, splitChar]
  | cons c₀ t =>
    rw [← hcomps, splitChar_joinChar '/' comps (by rw [hcomps]; simp)
      (fun p hp => (hgood p hp).2.2.2.1)]
    rw [List.filter_cons_of_neg (by simp)]
    exact List.filter_eq_self.mpr (fun c hc => by simp [(hgood c hc).1])

theorem commonPrefixLen_append (l : List (List Char)) :
    ∀ r, commonPrefixLen l (l ++ r) = l.length := by
  induction l with
  | nil => intro r; cases r <;> rfl
  | cons x t ih =>
    intro r
    simp [commonPrefixLen, ih r]

/-- On canonical absolute paths, `isSubPath` means the base's segments are a
leading run of the sub path's segments. -/
theorem isSubPath_canonAbs_imp (rp : String → String) (f b : String)
    (comps_f comps_b : List (List Char))
    (hf : f.data = '/' :: joinChar '/' comps_f) (hgf : ∀ c ∈ comps_f, GoodC c)
    (hb : b.data = '/' :: joinChar '/' comps_b) (hgb : ∀ c ∈ comps_b, GoodC c)
    (hrpf : rp f = f) (hrpb : rp b = b)
    (hsub : isSubPath rp f b = true) :
    ∃ rest, comps_f = comps_b ++ rest := by
  unfold isSubPath at hsub
  rw [canonicalPath_canonAbs rp f hrpf ⟨comps_f, hf, hgf⟩,
    canonicalPath_canonAbs rp b hrpb ⟨comps_b, hb, hgb⟩] at hsub
  simp only [decide_eq_true_eq] at hsub
  rw [commonprefixDirs_pair] at hsub
  have hdata := congrArg String.data hsub
  simp only [] at hdata
  rw [hf, hb, splitChar_sep_cons, splitChar_sep_cons] at hdata
  by_cases hcb : comps_b = []
  · exact ⟨comps_f, by rw [hcb]; simp⟩
  · rw [splitChar_joinChar '/' comps_b hcb (fun p hp => (hgb p hp).2.2.2.1)] at hdata
    by_cases hcf : comps_f = []
    · exfalso
      obtain ⟨b₀, tb, hcbe⟩ := List.exists_cons_of_ne_nil hcb
      have hb₀ : b₀ ≠ [] := (hgb b₀ (hcbe ▸ List.mem_cons_self b₀ tb)).1
      rw [hcf] at hdata
      have e1 : splitChar '/' (joinChar '/' ([] : List (List Char))) = [[]] := rfl
      rw [e1, hcbe] at hdata
      have e2 : commonPrefixList ([] :: [[]]) ([] :: b₀ :: tb) = [[]] := by
        have s1 : commonPrefixList ([] :: [[]]) ([] :: b₀ :: tb) =
            if ([] : List Char) = [] then [] :: commonPrefixList [[]] (b₀ :: tb)
            else [] := rfl
        have s2 : commonPrefixList [[]] (b₀ :: tb) =
            if ([] : List Char) = b₀ then [] :: commonPrefixList [] tb else [] := rfl
        rw [s1, if_pos rfl, s2, if_neg (fun hh => hb₀ hh.symm)]
      rw [e2] at hdata
      simp [joinChar] at hdata
    · rw [splitChar_joinChar '/' comps_f hcf (fun p hp => (hgf p hp).2.2.2.1)] at hdata
      have e3 : commonPrefixList ([] :: comps_f) ([] :: comps_b) =
          [] :: commonPrefixList comps_f comps_b := by
        simp [commonPrefixList]
      rw [e3] at hdata
      cases hX : commonPrefixList comps_f comps_b with
      | nil =>
        exfalso
        rw [hX] at hdata
        obtain ⟨b₀, tb, hcbe⟩ := List.exists_cons_of_ne_nil hcb
        rw [hcbe] at hdata
        simp [joinChar] at hdata
      | cons x₀ tx =>
        rw [hX, joinChar_cons₂] at hdata
        simp only [List.nil_append, List.cons.injEq, true_and] at hdata
        have hXfree : ∀ p ∈ x₀ :: tx, '/' ∉ p := by
          intro p hp
          have hmem : p ∈ comps_b := commonPrefixList_mem comps_f comps_b p (hX ▸ hp)
          exact (hgb p hmem).2.2.2.1
        have hXsplit : x₀ :: tx = comps_b := by
          have h1 : splitChar '/' (joinChar '/' (x₀ :: tx)) = x₀ :: tx :=
            splitChar_joinChar '/' _ (by simp) hXfree
          have h2 : splitChar '/' (joinChar '/' comps_b) = comps_b :=
            splitChar_joinChar '/' comps_b hcb (fun p hp => (hgb p hp).2.2.2.1)
          rw [← h1, hdata, h2]
        obtain ⟨rest, hrest⟩ := commonPrefixList_eq_right comps_f comps_b
          (by rw [hX, hXsplit])
        exact ⟨rest, hrest⟩

/-- The last character of a slash-joined list ending in a nonempty piece is
the last character of that piece. -/
theorem joinChar_getLast (sep : Char) :
    ∀ (cs : List (List Char)) (x : List Char), x ≠ [] →
      (joinChar sep (cs ++ [x])).getLast? = x.getLast? := by
  intro cs
  induction cs with
  | nil => intro x _; rfl
  | cons c cs ih =>
    intro x hx
    have hne : cs ++ [x] ≠ [] := by simp
    cases hcs : cs ++ [x] with
    | nil => exact absurd hcs hne
    | cons y t =>
      rw [List.cons_append, hcs, joinChar_cons₂, ← hcs]
      rw [List.getLast?_append_of_ne_nil _ (by simp : (sep :: joinChar sep (cs ++ [x])) ≠ [])]
      rw [List.getLast?_cons, ih x hx]
      have : x.getLast?.isSome := by rw [List.getLast?_isSome]; exact hx
      obtain ⟨v, hv⟩ := Option.isSome_iff_exists.mp this
      rw [hv]
      rfl

/-! ### Characterization of `getRelativePath` and non-strict totality -/

theorem getRelativePath_eq (rp : String → String) (cwd path : String)
    (l : List String) (strict : Bool) :
    getRelativePath rp cwd path (PyStrList.list l) strict =
      match (l.filter (fun p => isSubPath rp path p)).getLast? with
      | none => if strict then none else some path
      | some relto =>
        some (formatPathStr (relpath cwd (abspath cwd (rp path)) (abspath cwd (rp relto)))) := by
  unfold getRelativePath
  show (match (l.foldl (fun acc p => if isSubPath rp path p then some p else acc) none) with
    | none => if strict then none else some path
    | some relto =>
      some (formatPathStr (relpath cwd (abspath cwd (rp path)) (abspath cwd (rp relto))))) = _
  rw [foldl_lastMatch (fun p => isSubPath rp path p) l none]
  cases (l.filter (fun p => isSubPath rp path p)).getLast? <;> rfl

/-- Non-strict `getRelativePath` always returns a string. -/
theorem getRelativePath_nonstrict_isSome (rp : String → String) (cwd path : String)
    (rt : PyStrList) : (getRelativePath rp cwd path rt false).isSome = true := by
  show (match (rt.asList.foldl (fun acc p => if isSubPath rp path p then some p else acc) none) with
    | none => if false = true then none else some path
    | some relto =>
      some (formatPathStr (relpath cwd (abspath cwd (rp path)) (abspath cwd (rp relto))))).isSome = true
  rw [foldl_lastMatch (fun p => isSubPath rp path p) rt.asList none]
  cases (rt.asList.filter (fun p => isSubPath rp path p)).getLast? <;> rfl

/-- `os.path.relpath` of a canonical file under a canonical base drops the
base's segments. -/
theorem relpath_canonAbs (cwd f b : String) (comps_b rest : List (List Char))
    (hb : b.data = '/' :: joinChar '/' comps_b) (hgb : ∀ c ∈ comps_b, GoodC c)
    (hf : f.data = '/' :: joinChar '/' (comps_b ++ rest))
    (hgf : ∀ c ∈ comps_b ++ rest, GoodC c)
    (hrestne : rest ≠ []) :
    relpath cwd f b = ⟨joinChar '/' rest⟩ := by
  unfold relpath
  rw [abspath_canonAbs cwd b ⟨comps_b, hb, hgb⟩,
    abspath_canonAbs cwd f ⟨comps_b ++ rest, hf, hgf⟩,
    splitChar_canonAbs_filter b comps_b hb hgb,
    splitChar_canonAbs_filter f _ hf hgf]
  simp only [commonPrefixLen_append, Nat.sub_self, List.replicate, List.nil_append,
    List.drop_left]
  rw [if_neg hrestne]

/-- `formatPath` is the identity on a slash-join of clean components. -/
theorem formatPathStr_join (rest : List (List Char))
    (hg : ∀ c ∈ rest, GoodC c) (hne : rest ≠ []) :
    formatPathStr ⟨joinChar '/' rest⟩ = ⟨joinChar '/' rest⟩ := by
  unfold formatPathStr pathToUnicode
  rw [show (⟨joinChar '/' rest⟩ : String).data = joinChar '/' rest from rfl]
  have hnf : NFcomps (decide ((0 : Nat) ≠ 0)) rest := by
    refine ⟨0, rest, by simp, ?_, ?_, by simp⟩
    · intro hm; exact (hg dd hm).2.2.1 rfl
    · intro c hc
      obtain ⟨h1, h2, _, h4, _⟩ := hg c hc
      exact ⟨h1, h2, h4⟩
  have h0 : joinChar '/' rest = List.replicate 0 '/' ++ joinChar '/' rest := by simp
  rw [h0, normpathL_normOut 0 rest (by omega) hnf (fun hcc => hne hcc.2), ← h0]
  refine congrArg (fun l => (⟨l⟩ : String)) ?_
  apply replaceBS_eq_self
  intro hmem
  rcases mem_joinChar '/' rest '\\' hmem with h1 | ⟨p, hp, hcp⟩
  · cases h1
  · exact (hg p hp).2.2.2.2 hcp

/-- Joining the relative remainder back onto the canonical base recovers the
canonical file path, character for character. -/
theorem joinPath_canon (b f : String) (comps_b rest : List (List Char))
    (hb : b.data = '/' :: joinChar '/' comps_b) (hgb : ∀ c ∈ comps_b, GoodC c)
    (hf : f.data = '/' :: joinChar '/' (comps_b ++ rest))
    (hgrest : ∀ c ∈ rest, GoodC c) (hrestne : rest ≠ []) :
    joinPath b ⟨joinChar '/' rest⟩ = f := by
  obtain ⟨r₀, tr, hre⟩ := List.exists_cons_of_ne_nil hrestne
  obtain ⟨hne0, _, _, hfree0, _⟩ := hgrest r₀ (hre ▸ List.mem_cons_self r₀ tr)
  obtain ⟨ch, r₀', hch⟩ := List.exists_cons_of_ne_nil hne0
  have hch' : ch ≠ '/' := fun hcc => hfree0 (hcc ▸ hch ▸ List.mem_cons_self ch r₀')
  obtain ⟨rr, hrr⟩ := joinChar_cons_ex '/' r₀ tr
  have hjoindata : joinChar '/' rest = ch :: (r₀' ++ rr) := by
    rw [hre, hrr, hch]; rfl
  have habsr : isAbs ⟨joinChar '/' rest⟩ = false := by
    unfold isAbs
    rw [show (⟨joinChar '/' rest⟩ : String).data = joinChar '/' rest from rfl, hjoindata]
    simp [List.take, hch']
  apply string_data_eq
  unfold joinPath
  rw [habsr]
  simp only [Bool.false_eq_true, if_false]
  by_cases hcb : comps_b = []
  · -- base is the root `/`: it ends in a slash, so the join is plain append
    have hbdata : b.data = ['/'] := by rw [hb, hcb]; rfl
    rw [if_pos (Or.inr (by rw [hbdata]; rfl))]
    show b.data ++ joinChar '/' rest = f.data
    rw [hbdata, hf, hcb, List.nil_append]
    rfl
  · -- base does not end in a slash
    have hlast : b.data.getLast? ≠ some '/' := by
      have hx : comps_b.getLast?.isSome := by rw [List.getLast?_isSome]; exact hcb
      obtain ⟨x, hxe⟩ := Option.isSome_iff_exists.mp hx
      have hxsplit : comps_b.dropLast ++ [x] = comps_b :=
        List.dropLast_append_getLast? x (by rw [hxe]; rfl)
      have hxmem : x ∈ comps_b := List.mem_of_getLast?_eq_some hxe
      obtain ⟨hxne, _, _, hxfree, _⟩ := hgb x hxmem
      have hjl : (joinChar '/' comps_b).getLast? = x.getLast? := by
        rw [← hxsplit]
        exact joinChar_getLast '/' comps_b.dropLast x hxne
      have hvx : x.getLast?.isSome := by rw [List.getLast?_isSome]; exact hxne
      obtain ⟨v, hv⟩ := Option.isSome_iff_exists.mp hvx
      have hvne : v ≠ '/' := fun hvv =>
        hxfree (hvv ▸ List.mem_of_getLast?_eq_some hv)
      rw [hb, List.getLast?_cons, hjl, hv]
      intro hcon
      simp at hcon
      exact hvne hcon
    have hbne : ¬(b.data = [] ∨ b.data.getLast? = some '/') := by
      intro hcon
      rcases hcon with hcon | hcon
      · rw [hb] at hcon; cases hcon
      · exact hlast hcon
    rw [if_neg hbne]
    show b.data ++ '/' :: joinChar '/' rest = f.data
    rw [hb, hf, joinChar_append '/' comps_b rest hcb hrestne]
    rfl

theorem take_one_eq_cons (l : List Char) (c : Char) (h : l.take 1 = [c]) :
    l = c :: l.drop 1 := by
  cases l with
  | nil => cases h
  | cons a t =>
    simp [List.take] at h
    rw [h]
    rfl

/-- The two halves of `os.path.splitext` concatenate back to the input. -/
theorem splitext_append (p : String) :
    (splitext p).1.data ++ (splitext p).2.data = p.data := by
  unfold splitext
  simp only []
  split
  · simp
  · split_ifs <;> simp

/-- One-step equation for the `search` file loop on a cons walk. -/
theorem searchWalkGo_cons (exts : List String) (m : Bool) (root f : String)
    (rest : List (String × String)) (disc : List (String × String))
    (out : List String) :
    searchWalkGo exts m ((root, f) :: rest) disc out =
      (if (⟨((splitext f).2.data.drop 1).map Char.toLower⟩ : String) ∈ exts then
        if m then
          match aggregateMutex exts disc (joinPath root f) with
          | Except.error e => Except.error e
          | Except.ok disc2 => searchWalkGo exts m rest disc2 out
        else searchWalkGo exts m rest disc (out ++ [pathToUnicode (joinPath root f)])
      else searchWalkGo exts m rest disc out) := rfl

/-- The `search` file loop processes an appended walk sequentially,
propagating the `ValueError`. -/
theorem searchWalkGo_append (exts : List String) (m : Bool) :
    ∀ (pre suf : List (String × String)) (disc : List (String × String))
      (out : List String),
      searchWalkGo exts m (pre ++ suf) disc out =
        match searchWalkGo exts m pre disc out with
        | Except.error e => Except.error e
        | Except.ok (d, o) => searchWalkGo exts m suf d o := by
  intro pre
  induction pre with
  | nil => intro suf disc out; rfl
  | cons hd pre' ih =>
    intro suf disc out
    obtain ⟨root, f⟩ := hd
    rw [List.cons_append, searchWalkGo_cons, searchWalkGo_cons]
    by_cases hext : (⟨((splitext f).2.data.drop 1).map Char.toLower⟩ : String) ∈ exts
    · rw [if_pos hext, if_pos hext]
      cases m with
      | false =>
        simp only [Bool.false_eq_true, if_false]
        exact ih suf disc (out ++ [pathToUnicode (joinPath root f)])
      | true =>
        simp only [if_true]
        cases hagg : aggregateMutex exts disc (joinPath root f) with
        | error e => rfl
        | ok d2 => exact ih suf d2 out
    · rw [if_neg hext, if_neg hext]
      exact ih suf disc out

/-! ### The claims -/

/-- C1: `getJailedPath(filepath, relativeTo, jailLimits)` returns `None`
exactly when the symlink-resolved `filepath` is not an `isSubPath` of any
root in `jailLimits`, and returns a string whenever it is inside at least
one root — that string being the strict relative path against `relativeTo`
when that succeeds (is truthy), else the non-strict relative path against
the `jailLimits` list. -/
theorem claim_C1 (rp : String → String) (cwd filepath : String)
    (relativeTo : PyStrList) (jailLimits : List String) :
    ((getJailedPath rp cwd filepath relativeTo jailLimits).isSome
      = jailLimits.any (fun j => isSubPath rp (rp filepath) j))
    ∧ (getJailedPath rp cwd filepath relativeTo jailLimits
      = if jailLimits.any (fun j => isSubPath rp (rp filepath) j) then
          (let relPath := getRelativePath rp cwd (rp filepath) relativeTo true
           if pyTruthyOpt relPath then relPath
           else getRelativePath rp cwd (rp filepath) (PyStrList.list jailLimits) false)
        else none) := by
  have hguard : (if pyIsStrTypeObj relativeTo then resolveStrList rp relativeTo
      else relativeTo) = relativeTo := by
    cases relativeTo <;> rfl
  have hval : getJailedPath rp cwd filepath relativeTo jailLimits
      = if jailLimits.any (fun j => isSubPath rp (rp filepath) j) then
          (let relPath := getRelativePath rp cwd (rp filepath) relativeTo true
           if pyTruthyOpt relPath then relPath
           else getRelativePath rp cwd (rp filepath) (PyStrList.list jailLimits) false)
        else none := by
    simp only [getJailedPath, withinJail, hguard]
  refine ⟨?_, hval⟩
  rw [hval]
  by_cases hj : jailLimits.any (fun j => isSubPath rp (rp filepath) j) = true
  · rw [if_pos hj, hj]
    simp only []
    by_cases ht : pyTruthyOpt (getRelativePath rp cwd (rp filepath) relativeTo true) = true
    · rw [if_pos ht]
      cases hopt : getRelativePath rp cwd (rp filepath) relativeTo true with
      | none => rw [hopt] at ht; cases ht
      | some s => rfl
    · rw [if_neg ht]
      exact getRelativePath_nonstrict_isSome rp cwd (rp filepath)
        (PyStrList.list jailLimits)
  · rw [if_neg hj]
    simp only [Option.isSome_none]
    exact (Bool.not_eq_true _).mp (fun hcon => hj hcon) |>.symm

/-- C2: `getRelativePath` keeps the LAST entry of the search list for which
`isSubPath(path, entry)` holds (last-match-wins), computes the relative path
against it, and when no entry matches returns `None` under `strict` and the
path unchanged otherwise. -/
theorem claim_C2 (rp : String → String) (cwd path : String) (l : List String)
    (strict : Bool) :
    getRelativePath rp cwd path (PyStrList.list l) strict =
      match (l.filter (fun p => isSubPath rp path p)).getLast? with
      | none => if strict then none else some path
      | some relto =>
        some (formatPathStr (relpath cwd (abspath cwd (rp path))
          (abspath cwd (rp relto)))) :=
  getRelativePath_eq rp cwd path l strict

/-- C3: the claim says `thoroughFindFile` normalizes backslashes before
searching; the source line `filename.replace('\\', '/')` discards the value
`str.replace` returns, so no normalization happens and a backslash filename
misses a file its forward-slash spelling finds (the comment "Ensure unix
style path" shows the normalization was intended).  On the `rpFoo`
filesystem, `foo\bar.obj` falls through every probe and only gets its
backslash replaced by the final `formatPath`, while `foo/bar.obj` is found
and canonicalized. -/
theorem claim_C3 :
    thoroughFindFile rpFoo isfileFoo "/d" "/sd" "/u" "/s" "foo\\bar.obj"
      (PyStrList.list []) false = "foo/bar.obj"
    ∧ thoroughFindFile rpFoo isfileFoo "/d" "/sd" "/u" "/s" "foo/bar.obj"
      (PyStrList.list []) false = "/cwd/foo/bar.obj" := by
  constructor
  · unfold thoroughFindFile
    decide
  · unfold thoroughFindFile
    decide

/-- C4: the guard `relativeTo is str` is an identity comparison with the
builtin type object `str`, false for every plain-string argument, so a
string `relativeTo` reaches the relativization step without the
`os.path.realpath` of that branch ever being applied: `getJailedPath`
coincides with the variant that has no such resolution step. -/
theorem claim_C4 (rp : String → String) (cwd filepath s : String)
    (jailLimits : List String) :
    pyIsStrTypeObj (PyStrList.str s) = false
    ∧ getJailedPath rp cwd filepath (PyStrList.str s) jailLimits
      = getJailedPathUnresolvedRT rp cwd filepath (PyStrList.str s) jailLimits :=
  ⟨rfl, rfl⟩

/-- C6: `isSubPath(sub, base)` holds iff the segment-wise common prefix of
the canonical forms equals the canonical base; every path is a subpath of
itself; and `/home/user2` is not a subpath of `/home/user` (segments, not
string prefixes). -/
theorem claim_C6 :
    (∀ (rp : String → String) (sub base : String),
      isSubPath rp sub base =
        decide (commonprefixDirs [canonicalPath rp sub, canonicalPath rp base] '/'
          = canonicalPath rp base))
    ∧ (∀ (rp : String → String) (d : String), isSubPath rp d d = true)
    ∧ isSubPath idRealpath "/home/user2" "/home/user" = false := by
  refine ⟨fun rp sub base => rfl, fun rp d => ?_, by decide⟩
  show decide (commonprefixDirs [canonicalPath rp d, canonicalPath rp d] '/'
    = canonicalPath rp d) = true
  rw [commonprefixDirs_self]
  simp

/-- C7: `findFile` joins `relPath` onto each search path in order and
returns the formatted join for the FIRST existing file; with no hit it
returns `None` under `strict` and the unchanged `relPath` otherwise. -/
theorem claim_C7 (isfile : String → Bool) (relPath : String) (l : List String)
    (strict : Bool) :
    findFile isfile relPath (PyStrList.list l) strict =
      match l.find? (fun p => isfile (joinPath p relPath)) with
      | some p => some (formatPathStr (joinPath p relPath))
      | none => if strict then none else some relPath := by
  unfold findFile
  rw [show (PyStrList.list l).asList = l from rfl, findFileGo_eq_find?]
  cases l.find? (fun p => isfile (joinPath p relPath)) <;> rfl

/-- C8 (counterexample): `formatPath` is NOT idempotent on every path: the
backslash replacement runs after `normpath`, so `formatPath("a\..") ==
"a/.."` but a second application collapses it to `"."`. -/
theorem claim_C8_cex :
    formatPathStr (formatPathStr "a\\..") ≠ formatPathStr "a\\.." := by decide

/-- C8 (amended): `formatPath(None) == None`, and `formatPath` is idempotent
on every path containing no backslash (the counterexample `"a\.."` forces
this restriction: replacing backslashes after normalization can create new
separators that a second normalization then collapses). -/
theorem claim_C8 :
    formatPath none = none
    ∧ ∀ p : String, '\\' ∉ p.data →
        formatPath (formatPath (some p)) = formatPath (some p) := by
  refine ⟨rfl, fun p hp => ?_⟩
  show some (formatPathStr (formatPathStr p)) = some (formatPathStr p)
  rw [formatPathStr_idem p hp]

/-- C8 (witness): the amended idempotence at the concrete path `/a/b`. -/
theorem claim_C8_witness :
    formatPath (formatPath (some "/a/b")) = formatPath (some "/a/b") :=
  claim_C8.2 "/a/b" (by decide)

/-- C9 (counterexample): a file whose extension matches only after
lower-casing does NOT make `search(..., mutexExtensions=True)` raise: a lone
`a.OBJ` with extensions `["obj"]` is aggregated (the un-lowercased `"OBJ"`
is merely stored) and yielded as `./a.OBJ` — `list.index` only runs when a
second file with the same stripped base path has already been discovered. -/
theorem claim_C9_cex :
    search [(".", "a.OBJ")] ["obj"] true = Except.ok ["./a.OBJ"] := by decide

/-- C9 (amended): with `mutexExtensions=True`, a file whose extension
matches only after lower-casing (its lower-cased extension is in the
normalized list, the raw one is not) is yielded with its original casing
when it is alone in the walk (provided the joined path really carries a dot
extension), but `search` raises an uncaught `ValueError` as soon as the
traversal reaches such a file whose extension-stripped base has already
been discovered, because the un-lowercased extension (or the stored
un-lowercased previous one) is looked up in the lower-cased `extensions`
list. -/
theorem claim_C9 :
    (∀ (root f : String) (extensions0 : List String),
      (⟨((splitext f).2.data.drop 1).map Char.toLower⟩ : String)
          ∈ normalizeExtensions extensions0 →
      (⟨(splitext (joinPath root f)).2.data.drop 1⟩ : String)
          ∉ normalizeExtensions extensions0 →
      (splitext (joinPath root f)).2.data.take 1 = ['.'] →
      search [(root, f)] extensions0 true
        = Except.ok [pathToUnicode (joinPath root f)])
    ∧ (∀ (extensions0 : List String) (pre : List (String × String))
        (root f : String) (rest : List (String × String))
        (disc : List (String × String)) (out : List String),
      searchWalkGo (normalizeExtensions extensions0) true pre [] []
        = Except.ok (disc, out) →
      (⟨((splitext f).2.data.drop 1).map Char.toLower⟩ : String)
          ∈ normalizeExtensions extensions0 →
      (∃ prev, lookupA disc (splitext (joinPath root f)).1 = some prev ∧
        (indexList (normalizeExtensions extensions0)
            (⟨(splitext (joinPath root f)).2.data.drop 1⟩ : String) = none
          ∨ indexList (normalizeExtensions extensions0) prev = none)) →
      search (pre ++ (root, f) :: rest) extensions0 true
        = Except.error "ValueError") := by
  constructor
  · intro root f extensions0 hmatch hnotin hdot
    have hagg : aggregateMutex (normalizeExtensions extensions0) [] (joinPath root f)
        = Except.ok [((splitext (joinPath root f)).1,
            (⟨(splitext (joinPath root f)).2.data.drop 1⟩ : String))] := rfl
    have hgo : searchWalkGo (normalizeExtensions extensions0) true [(root, f)] [] []
        = Except.ok ([((splitext (joinPath root f)).1,
            (⟨(splitext (joinPath root f)).2.data.drop 1⟩ : String))], []) := by
      rw [searchWalkGo_cons, if_pos hmatch, if_pos rfl, hagg]
      rfl
    have hrec : (⟨(splitext (joinPath root f)).1.data ++ '.'
        :: (splitext (joinPath root f)).2.data.drop 1⟩ : String)
        = joinPath root f := by
      apply string_data_eq
      show (splitext (joinPath root f)).1.data ++ '.'
        :: (splitext (joinPath root f)).2.data.drop 1 = (joinPath root f).data
      have hcat := splitext_append (joinPath root f)
      have hd := take_one_eq_cons _ '.' hdot
      rw [hd] at hcat
      exact hcat
    show (match searchWalkGo (normalizeExtensions extensions0) true [(root, f)] [] []
      with
      | Except.error e => Except.error e
      | Except.ok (disc, out) =>
        Except.ok (out ++ disc.map
          (fun pe => pathToUnicode ⟨pe.1.data ++ '.' :: pe.2.data⟩)))
      = Except.ok [pathToUnicode (joinPath root f)]
    rw [hgo]
    show Except.ok [pathToUnicode ⟨(splitext (joinPath root f)).1.data ++ '.'
      :: (splitext (joinPath root f)).2.data.drop 1⟩]
      = Except.ok [pathToUnicode (joinPath root f)]
    rw [hrec]
  · intro extensions0 pre root f rest disc out hpre hmatch hcol
    obtain ⟨prev, hlook, hidx⟩ := hcol
    have hagg : aggregateMutex (normalizeExtensions extensions0) disc (joinPath root f)
        = Except.error "ValueError" := by
      show (match lookupA disc (splitext (joinPath root f)).1 with
        | some prev2 =>
          match indexList (normalizeExtensions extensions0)
              (⟨(splitext (joinPath root f)).2.data.drop 1⟩ : String) with
          | none => Except.error "ValueError"
          | some i =>
            match indexList (normalizeExtensions extensions0) prev2 with
            | none => Except.error "ValueError"
            | some j =>
              Except.ok (if i < j then
                updateA disc (splitext (joinPath root f)).1
                  (⟨(splitext (joinPath root f)).2.data.drop 1⟩ : String)
                else disc)
        | none => Except.ok (disc ++ [((splitext (joinPath root f)).1,
            (⟨(splitext (joinPath root f)).2.data.drop 1⟩ : String))]))
        = Except.error "ValueError"
      rcases hidx with hidx | hidx
      · simp only [hlook, hidx]
      · cases hL : indexList (normalizeExtensions extensions0)
            (⟨(splitext (joinPath root f)).2.data.drop 1⟩ : String) with
        | none => simp only [hlook, hL]
        | some i => simp only [hlook, hL, hidx]
    show (match searchWalkGo (normalizeExtensions extensions0) true
        (pre ++ (root, f) :: rest) [] [] with
      | Except.error e => Except.error e
      | Except.ok (d, o) =>
        Except.ok (o ++ d.map
          (fun pe => pathToUnicode ⟨pe.1.data ++ '.' :: pe.2.data⟩)))
      = Except.error "ValueError"
    rw [searchWalkGo_append _ true pre ((root, f) :: rest) [] [], hpre]
    show (match searchWalkGo (normalizeExtensions extensions0) true
        ((root, f) :: rest) disc out with
      | Except.error e => Except.error e
      | Except.ok (d, o) =>
        Except.ok (o ++ d.map
          (fun pe => pathToUnicode ⟨pe.1.data ++ '.' :: pe.2.data⟩)))
      = Except.error "ValueError"
    rw [searchWalkGo_cons, if_pos hmatch, if_pos rfl, hagg]

/-- C9 (witness): the amended behaviour at concrete inputs — a lone `a.OBJ`
with extensions `["obj"]` is yielded as `./a.OBJ`, while `a.obj` followed by
`a.OBJ` raises the `ValueError`. -/
theorem claim_C9_witness :
    search [(".", "a.OBJ")] ["obj"] true = Except.ok ["./a.OBJ"]
    ∧ search [(".", "a.obj"), (".", "a.OBJ")] ["obj"] true
      = Except.error "ValueError" := by
  constructor
  · rw [claim_C9.1 "." "a.OBJ" ["obj"] (by decide) (by decide) (by decide)]
    decide
  · exact claim_C9.2 ["obj"] [(".", "a.obj")] "." "a.OBJ" [] [("./a", "obj")] []
      (by decide) (by decide) ⟨"obj", by decide, Or.inl (by decide)⟩

/-- C10: supplying a single string where a list is expected behaves exactly
like the one-element list, for `getRelativePath`, `findFile`, and
`thoroughFindFile`. -/
theorem claim_C10 (rp : String → String) (isfile : String → Bool)
    (cwd path relPath filename s : String) (strict : Bool)
    (dataPath sysDataPath userPath sysPath : String) (sdp : Bool) :
    getRelativePath rp cwd path (PyStrList.str s) strict
      = getRelativePath rp cwd path (PyStrList.list [s]) strict
    ∧ findFile isfile relPath (PyStrList.str s) strict
      = findFile isfile relPath (PyStrList.list [s]) strict
    ∧ thoroughFindFile rp isfile dataPath sysDataPath userPath sysPath filename
        (PyStrList.str s) sdp
      = thoroughFindFile rp isfile dataPath sysDataPath userPath sysPath filename
        (PyStrList.list [s]) sdp := by
  refine ⟨rfl, rfl, ?_⟩
  unfold thoroughFindFile
  rfl

/-- C5 (counterexample): the round-trip `findFile(getRelativePath(f, [b]),
[b]) == canonicalPath(f)` fails as stated: with the existing file
`f = data/x.obj` under the base `b = data` (a relative base), all the
claim's premises hold, yet `findFile` returns the formatted join
`data/x.obj` while `canonicalPath(f)` is the absolute `/cwd/data/x.obj`. -/
theorem claim_C5_cex :
    isfileRel "data/x.obj" = true
    ∧ isSubPath rpRel "data/x.obj" "data" = true
    ∧ getRelativePath rpRel "/cwd" "data/x.obj" (PyStrList.list ["data"]) false
      = some "x.obj"
    ∧ findFile isfileRel "x.obj" (PyStrList.list ["data"]) false
      ≠ some (canonicalPath rpRel "data/x.obj") := by decide

/-- C5 (amended): the round-trip holds when the base and the file are
canonical absolute paths fixed by `realpath` (which is what `realpath`
produces on a live filesystem) and distinct: then
`findFile(getRelativePath(f, [b]), [b]) == canonicalPath(f)`. -/
theorem claim_C5 (rp : String → String) (isfile : String → Bool) (cwd f b : String)
    (hcf : CanonAbs f) (hcb : CanonAbs b) (hrpf : rp f = f) (hrpb : rp b = b)
    (hfile : isfile f = true) (hne : f ≠ b) (hsub : isSubPath rp f b = true) :
    ∀ r, getRelativePath rp cwd f (PyStrList.list [b]) false = some r →
      findFile isfile r (PyStrList.list [b]) false = some (canonicalPath rp f) := by
  obtain ⟨comps_f, hf, hgf⟩ := hcf
  obtain ⟨comps_b, hb, hgb⟩ := hcb
  obtain ⟨rest, hrest⟩ :=
    isSubPath_canonAbs_imp rp f b comps_f comps_b hf hgf hb hgb hrpf hrpb hsub
  subst hrest
  have hrestne : rest ≠ [] := fun h0 =>
    hne (string_data_eq f b (by rw [hf, hb, h0, List.append_nil]))
  have hgrest : ∀ c ∈ rest, GoodC c := fun c hc =>
    hgf c (List.mem_append.mpr (Or.inr hc))
  have hfilter : [b].filter (fun p => isSubPath rp f p) = [b] := by
    rw [List.filter_cons_of_pos hsub]
    rfl
  have hgrel : getRelativePath rp cwd f (PyStrList.list [b]) false
      = some ⟨joinChar '/' rest⟩ := by
    rw [getRelativePath_eq, hfilter]
    show some (formatPathStr (relpath cwd (abspath cwd (rp f)) (abspath cwd (rp b))))
      = _
    rw [hrpf, hrpb, abspath_canonAbs cwd f ⟨_, hf, hgf⟩,
      abspath_canonAbs cwd b ⟨comps_b, hb, hgb⟩,
      relpath_canonAbs cwd f b comps_b rest hb hgb hf hgf hrestne,
      formatPathStr_join rest hgrest hrestne]
  intro r hr
  rw [hgrel] at hr
  injection hr with hr'
  subst hr'
  have hjoin : joinPath b ⟨joinChar '/' rest⟩ = f :=
    joinPath_canon b f comps_b rest hb hgb hf hgrest hrestne
  have hgo : findFileGo isfile ⟨joinChar '/' rest⟩ [b] = some (formatPathStr f) := by
    show (if isfile (joinPath b ⟨joinChar '/' rest⟩) then
        some (formatPathStr (joinPath b ⟨joinChar '/' rest⟩))
      else findFileGo isfile ⟨joinChar '/' rest⟩ []) = some (formatPathStr f)
    rw [hjoin, hfile]
    simp
  show (match findFileGo isfile ⟨joinChar '/' rest⟩ [b] with
    | some p => some p
    | none => if false = true then none else some (⟨joinChar '/' rest⟩ : String))
    = some (canonicalPath rp f)
  rw [hgo]
  unfold canonicalPath
  rw [hrpf]

/-- C5 (witness): the amended round-trip at the concrete canonical file
`/j/x` under the canonical base `/j`. -/
theorem claim_C5_witness :
    findFile isfileJail "x" (PyStrList.list ["/j"]) false
      = some (canonicalPath idRealpath "/j/x") :=
  claim_C5 idRealpath isfileJail "/c" "/j/x" "/j"
    ⟨[['j'], ['x']], rfl, by decide⟩ ⟨[['j']], rfl, by decide⟩ rfl rfl
    (by decide) (by decide) (by decide) "x" (by decide)

end MH
